import Mathlib

/-!
Verification development for the salary-statistics engine of this
repository.  The Python functions of the source file are embedded as
executable Lean definitions: machine rationals stand for Python numbers
(the engine only divides, adds and multiplies, so exact rational
arithmetic models the intended real semantics), fallible code returns
`Except PyError`, and Python `None` returns are modelled with `Option`.
-/

/-- The Python runtime errors that the embedded functions can raise.
The source defines no error classes of its own; the only failures it can
produce are these built-in ones. -/
inductive PyError where
  | indexError : PyError
  | valueError : PyError
  | zeroDivisionError : PyError
deriving DecidableEq

/-- Python truncation toward zero, the semantics of `int(x)` applied to a
number. -/
def pyTrunc (x : ℚ) : ℤ :=
  if 0 ≤ x then ⌊x⌋ else ⌈x⌉

/-- Floor of the real square root of a nonnegative rational; the value of
`int(x ** 0.5)` for `0 ≤ x`.  (`int` truncates, and the square root of a
nonnegative number is nonnegative, so the truncation is a floor; the floor
of the square root of `x` equals the natural-number square root of
`⌊x⌋`.) -/
def isqrt (x : ℚ) : ℤ :=
  (Nat.sqrt (⌊x⌋.toNat) : ℤ)

/-- Python list indexing `l[i]`: a negative index counts from the end of
the list, and an index out of range raises `IndexError`. -/
def pyGet (l : List ℚ) (i : ℤ) : Except PyError ℚ :=
  let j : ℤ := if i < 0 then (l.length : ℤ) + i else i
  if 0 ≤ j then
    match l.get? j.toNat with
    | some v => Except.ok v
    | none => Except.error PyError.indexError
  else Except.error PyError.indexError

/-- Python truthiness of an optional integer: `None` and `0` are falsy,
every other integer is truthy. -/
def truthy : Option ℤ → Bool
  | none => false
  | some v => v != 0

/-- Python `a or b` on optional integers: returns `a` when it is truthy,
otherwise `b` (whatever `b` is). -/
def pyOr (a b : Option ℤ) : Option ℤ :=
  if truthy a then a else b

/-- The `salary` sub-object of a vacancy record: optional currency code
and optional lower and upper bounds (dictionary keys `currency`, `from`
and `to`; the bounds are named after the local variables of the source). -/
structure SalaryData where
  currency : Option String
  salary_from : Option ℤ
  salary_to : Option ℤ
deriving DecidableEq

/-- Embedding of `parse_salary` (src/main.py:52-61).  `none` for the
whole argument models a falsy `salary_data` (absent or empty dict).
Python `//` is floor division, embedded as `Int.fdiv`. -/
def parse_salary (salary_data : Option SalaryData) : Option ℤ :=
  match salary_data with
  | none => none
  | some d =>
    if d.currency = some "RUR" then
      let salary_from := d.salary_from
      let salary_to := d.salary_to
      if truthy salary_from && truthy salary_to then
        some (Int.fdiv (salary_from.getD 0 + salary_to.getD 0) 2)
      else pyOr salary_from salary_to
    else none

/-- Embedding of `calculate_mean` (src/main.py:64-65): exact division of
the sum by the length.  (On the empty list Python would raise
`ZeroDivisionError`; every caller in the source guards against that, and
every theorem below assumes a non-empty list.) -/
def calculate_mean (salaries : List ℚ) : ℚ :=
  salaries.sum / (salaries.length : ℚ)

/-- Embedding of `calculate_variance` (src/main.py:68-69): population
variance, divisor `n`. -/
def calculate_variance (salaries : List ℚ) (mean : ℚ) : ℚ :=
  ((salaries.map (fun x => (x - mean) ^ 2)).sum) / (salaries.length : ℚ)

/-- Embedding of `calculate_quantile` (src/main.py:72-80).  `sorted` is
embedded as insertion sort (any stable comparison sort is extensionally
the same on rationals), `int(index)` as truncation toward zero, and the
two subscripts use Python indexing semantics, so the function can raise
`IndexError` exactly where the source can. -/
def calculate_quantile (salaries : List ℚ) (q : ℚ) : Except PyError ℚ :=
  let sorted_salaries := List.insertionSort (fun a b => a ≤ b) salaries
  let n : ℤ := sorted_salaries.length
  let index : ℚ := ((n : ℚ) - 1) * q
  let lower : ℤ := pyTrunc index
  let delta : ℚ := index - (lower : ℚ)
  if lower + 1 < n then
    match pyGet sorted_salaries lower, pyGet sorted_salaries (lower + 1) with
    | Except.ok a, Except.ok b => Except.ok (a * (1 - delta) + b * delta)
    | Except.error e, _ => Except.error e
    | _, Except.error e => Except.error e
  else pyGet sorted_salaries lower

/-- The statistics dictionary built by `calculate_stats`
(src/main.py:103-115), with one field per key. -/
structure Stats where
  count : ℕ
  min : ℚ
  max : ℚ
  range : ℚ
  mean : ℚ
  variance : ℚ
  stdev : ℚ
  q1 : ℚ
  median : ℚ
  q3 : ℚ
  iqr : ℚ
deriving DecidableEq

/-- Embedding of `calculate_stats` (src/main.py:83-117).  The input is the
list of integer salaries produced by `parse_salary`; `return None` on a
falsy (empty) input is modelled by `Except.ok none`.  `sorted_salaries[0]`
and `sorted_salaries[-1]` are in range under the emptiness guard and are
embedded as `getD`; the seven derived fields are truncated with `int(...)`
exactly as in the source. -/
def calculate_stats (salaries : List ℤ) : Except PyError (Option Stats) :=
  if salaries.isEmpty then Except.ok none else
  let vals : List ℚ := salaries.map (fun z : ℤ => (z : ℚ))
  let sorted_salaries := List.insertionSort (fun a b => a ≤ b) vals
  let n := sorted_salaries.length
  let min_val := sorted_salaries.getD 0 0
  let max_val := sorted_salaries.getD (n - 1) 0
  let range_val := max_val - min_val
  let mean_val := calculate_mean vals
  let variance_val := calculate_variance vals mean_val
  match calculate_quantile sorted_salaries (1/4),
        calculate_quantile sorted_salaries (1/2),
        calculate_quantile sorted_salaries (3/4) with
  | Except.ok q1, Except.ok median, Except.ok q3 =>
      Except.ok (some
        { count := n
          min := min_val
          max := max_val
          range := range_val
          mean := (pyTrunc mean_val : ℚ)
          variance := (pyTrunc variance_val : ℚ)
          stdev := (isqrt variance_val : ℚ)
          q1 := (pyTrunc q1 : ℚ)
          median := (pyTrunc median : ℚ)
          q3 := (pyTrunc q3 : ℚ)
          iqr := (pyTrunc (q3 - q1) : ℚ) })
  | Except.error e, _, _ => Except.error e
  | _, Except.error e, _ => Except.error e
  | _, _, Except.error e => Except.error e

/-- Python `min` over a non-empty list; `ValueError` on the empty list. -/
def pymin (l : List ℚ) : Except PyError ℚ :=
  match l with
  | [] => Except.error PyError.valueError
  | x :: xs => Except.ok (xs.foldl min x)

/-- Python `max` over a non-empty list; `ValueError` on the empty list. -/
def pymax (l : List ℚ) : Except PyError ℚ :=
  match l with
  | [] => Except.error PyError.valueError
  | x :: xs => Except.ok (xs.foldl max x)

/-- The inner loop of `histogram` (src/main.py:128-131): scan the bins in
increasing order and return the first `i` with
`bins[i] <= salary < bins[i+1]`, or `none` when no bin matches. -/
def binAssign (bins : List ℚ) (n_bins : ℕ) (salary : ℚ) : Option ℕ :=
  (List.range n_bins).find? (fun i =>
    decide (bins.getD i 0 ≤ salary) && decide (salary < bins.getD (i + 1) 0))

/-- Embedding of `histogram` (src/main.py:120-136).  The result triple is
`(bins, freq_counts, prob_counts)`.  `min()`/`max()` on an empty list
raise `ValueError`, and `n_bins = 0` makes the bin-width division raise
`ZeroDivisionError`; otherwise all list subscripts of the source are in
range and the function is total. -/
def histogram (salaries : List ℚ) (n_bins : ℕ) :
    Except PyError (List ℚ × List ℕ × List ℚ) :=
  match pymin salaries, pymax salaries with
  | Except.ok mn, Except.ok mx =>
    if n_bins = 0 then Except.error PyError.zeroDivisionError else
    let min_salary := max 0 mn
    let max_salary := mx
    let bin_width := (max_salary - min_salary) / (n_bins : ℚ)
    let bins := (List.range (n_bins + 1)).map
      (fun i : ℕ => min_salary + (i : ℚ) * bin_width)
    let freq_counts := salaries.foldl
      (fun freq salary =>
        match binAssign bins n_bins salary with
        | some i => freq.set i (freq.getD i 0 + 1)
        | none => freq)
      (List.replicate n_bins 0)
    let total := salaries.length
    let prob_counts := freq_counts.map (fun count : ℕ => (count : ℚ) / (total : ℚ))
    Except.ok (bins, freq_counts, prob_counts)
  | Except.error e, _ => Except.error e
  | _, Except.error e => Except.error e

/-- The quantile formula exactly as the specification states it (R type-7
linear interpolation): `index = (n-1)*q`, `lower = floor(index)`,
`delta = index - lower`, interpolate between the order statistics at
`lower` and `lower+1` when `lower+1 < n`, else clamp to `sorted[lower]`.
Total (indices read with `getD`), to be compared with the source function
`calculate_quantile`. -/
def qval (s : List ℚ) (q : ℚ) : ℚ :=
  let n : ℤ := s.length
  let index : ℚ := ((n : ℚ) - 1) * q
  let lower : ℤ := ⌊index⌋
  let delta : ℚ := index - (lower : ℚ)
  if lower + 1 < n then
    s.getD lower.toNat 0 * (1 - delta) + s.getD (lower.toNat + 1) 0 * delta
  else s.getD lower.toNat 0

/-- The closed form of the statistics summary that `calculate_stats`
produces on a non-empty input (proved below in `calculate_stats_eq`). -/
def statsSpec (salaries : List ℤ) : Stats :=
  let vals : List ℚ := salaries.map (fun z : ℤ => (z : ℚ))
  let s := List.insertionSort (fun a b => a ≤ b) vals
  let mean_val := calculate_mean vals
  let variance_val := calculate_variance vals mean_val
  { count := s.length
    min := s.getD 0 0
    max := s.getD (s.length - 1) 0
    range := s.getD (s.length - 1) 0 - s.getD 0 0
    mean := (pyTrunc mean_val : ℚ)
    variance := (pyTrunc variance_val : ℚ)
    stdev := (isqrt variance_val : ℚ)
    q1 := (pyTrunc (qval s (1/4)) : ℚ)
    median := (pyTrunc (qval s (1/2)) : ℚ)
    q3 := (pyTrunc (qval s (3/4)) : ℚ)
    iqr := (pyTrunc (qval s (3/4) - qval s (1/4)) : ℚ) }

/-! ### Helper lemmas -/

/-- Evaluation rule for `Nat.sqrt` via its characterization. -/
theorem nat_sqrt_eval {n a : ℕ} (h1 : a * a ≤ n) (h2 : n < (a + 1) * (a + 1)) :
    Nat.sqrt n = a :=
  (Nat.eq_sqrt.mpr ⟨h1, h2⟩).symm

/-- Truncation toward zero fixes integers. -/
theorem pyTrunc_intCast (z : ℤ) : pyTrunc (z : ℚ) = z := by
  rw [pyTrunc]
  split
  · exact Int.floor_intCast z
  · exact Int.ceil_intCast z

/-- Truncation toward zero is monotone. -/
theorem pyTrunc_mono {x y : ℚ} (h : x ≤ y) : pyTrunc x ≤ pyTrunc y := by
  rw [pyTrunc, pyTrunc]
  rcases le_or_lt 0 x with hx | hx
  · rw [if_pos hx, if_pos (hx.trans h)]
    exact Int.floor_le_floor h
  · rcases le_or_lt 0 y with hy | hy
    · rw [if_neg (not_le.mpr hx), if_pos hy]
      calc ⌈x⌉ ≤ ⌈(0 : ℚ)⌉ := Int.ceil_le_ceil hx.le
        _ = 0 := by norm_num
        _ ≤ ⌊y⌋ := Int.floor_nonneg.mpr hy
    · rw [if_neg (not_le.mpr hx), if_neg (not_le.mpr hy)]
      exact Int.ceil_le_ceil h

/-- Truncation of a nonnegative number is its floor. -/
theorem pyTrunc_of_nonneg {x : ℚ} (h : 0 ≤ x) : pyTrunc x = ⌊x⌋ := by
  rw [pyTrunc, if_pos h]

/-- Truncation of a nonnegative number is nonnegative. -/
theorem pyTrunc_nonneg {x : ℚ} (h : 0 ≤ x) : 0 ≤ pyTrunc x := by
  rw [pyTrunc_of_nonneg h]
  exact Int.floor_nonneg.mpr h

/-- An integer below `x` is at most the truncation of `x`. -/
theorem le_pyTrunc {z : ℤ} {x : ℚ} (h : (z : ℚ) ≤ x) : z ≤ pyTrunc x := by
  have := pyTrunc_mono h
  rwa [pyTrunc_intCast] at this

/-- The truncation of `x` is at most any integer above `x`. -/
theorem pyTrunc_le {z : ℤ} {x : ℚ} (h : x ≤ (z : ℚ)) : pyTrunc x ≤ z := by
  have := pyTrunc_mono h
  rwa [pyTrunc_intCast] at this

/-- A nonnegative in-range index reads the list through `getD`. -/
theorem pyGet_of_nonneg_lt {l : List ℚ} {i : ℤ} (h0 : 0 ≤ i)
    (h1 : i < (l.length : ℤ)) : pyGet l i = Except.ok (l.getD i.toNat 0) := by
  have hneg : ¬i < 0 := not_lt.mpr h0
  have hlt : i.toNat < l.length := by omega
  rw [pyGet]
  simp only [hneg, if_false, if_pos h0]
  rw [List.getD_eq_getElem l 0 hlt, List.get?_eq_getElem? l i.toNat,
    List.getElem?_eq_getElem hlt]

/-- Python indexing of the empty list always raises `IndexError`. -/
theorem pyGet_nil (i : ℤ) : pyGet [] i = Except.error PyError.indexError := by
  rw [pyGet]
  rcases lt_or_le i 0 with h | h
  · simp only [List.length_nil, Nat.cast_zero, h, if_true, zero_add]
    rw [if_neg (not_le.mpr h)]
  · simp only [List.length_nil, Nat.cast_zero, not_lt.mpr h, if_false, if_pos h]
    rfl

/-- In a list sorted by `≤`, entries read with `getD` are monotone in the
index, as long as the larger index is in range. -/
theorem sorted_getD_mono {s : List ℚ} (hs : s.Sorted (fun a b => a ≤ b))
    {i j : ℕ} (hij : i ≤ j) (hj : j < s.length) : s.getD i 0 ≤ s.getD j 0 := by
  have hi : i < s.length := lt_of_le_of_lt hij hj
  rw [List.getD_eq_getElem s 0 hi, List.getD_eq_getElem s 0 hj]
  rcases eq_or_lt_of_le hij with rfl | hlt
  · exact le_refl _
  · exact List.Sorted.rel_get_of_lt hs (a := ⟨i, hi⟩) (b := ⟨j, hj⟩) hlt

/-- The floor of `(n-1)` as a rational is `n-1`. -/
theorem floor_length_sub_one (m : ℕ) : ⌊(m : ℚ) - 1⌋ = (m : ℤ) - 1 := by
  rw [show ((m : ℚ) - 1) = (((m : ℤ) - 1 : ℤ) : ℚ) by push_cast; ring]
  exact Int.floor_intCast _

/-- For a non-empty list and `q` in `[0, 1]`, the floor of the scaled index
`(n-1)q` lies in `[0, n-1]`. -/
theorem qval_index_bounds {s : List ℚ} (hne : s ≠ []) {q : ℚ} (h0 : 0 ≤ q)
    (h1 : q ≤ 1) :
    0 ≤ ⌊((s.length : ℚ) - 1) * q⌋ ∧
      ⌊((s.length : ℚ) - 1) * q⌋ ≤ (s.length : ℤ) - 1 := by
  have hn : 1 ≤ s.length := List.length_pos.mpr hne
  have hn1 : (0 : ℚ) ≤ (s.length : ℚ) - 1 := by
    have : (1 : ℚ) ≤ (s.length : ℚ) := by exact_mod_cast hn
    linarith
  have hix0 : 0 ≤ ((s.length : ℚ) - 1) * q := mul_nonneg hn1 h0
  have hix1 : ((s.length : ℚ) - 1) * q ≤ (s.length : ℚ) - 1 :=
    mul_le_of_le_one_right hn1 h1
  refine ⟨Int.floor_nonneg.mpr hix0, ?_⟩
  calc ⌊((s.length : ℚ) - 1) * q⌋ ≤ ⌊(s.length : ℚ) - 1⌋ := Int.floor_le_floor hix1
    _ = (s.length : ℤ) - 1 := floor_length_sub_one _

/-- On a non-empty input and a probability in `[0, 1]`, the source function
`calculate_quantile` raises nothing and returns exactly the value of the
specification formula `qval` on the sorted input. -/
theorem calculate_quantile_eq_qval (l : List ℚ) (q : ℚ) (h0 : 0 ≤ q)
    (h1 : q ≤ 1) (hne : l ≠ []) :
    calculate_quantile l q =
      Except.ok (qval (List.insertionSort (fun a b => a ≤ b) l) q) := by
  set s := List.insertionSort (fun a b => a ≤ b) l with hsdef
  have hslen : s.length = l.length := List.length_insertionSort _ _
  have hsne : s ≠ [] := by
    intro hnil
    apply hne
    have := hslen
    rw [hnil] at this
    exact List.length_eq_zero.mp this.symm
  obtain ⟨hL0, hL1⟩ := qval_index_bounds hsne h0 h1
  have hix0 : 0 ≤ ((s.length : ℚ) - 1) * q := by
    have hn : 1 ≤ s.length := List.length_pos.mpr hsne
    have : (1 : ℚ) ≤ (s.length : ℚ) := by exact_mod_cast hn
    exact mul_nonneg (by linarith) h0
  rw [calculate_quantile, qval]
  simp only [← hsdef, Int.cast_natCast]
  rw [pyTrunc_of_nonneg hix0]
  set L : ℤ := ⌊((s.length : ℚ) - 1) * q⌋ with hLdef
  by_cases hb : L + 1 < (s.length : ℤ)
  · rw [if_pos hb, if_pos hb]
    rw [pyGet_of_nonneg_lt hL0 (by omega), pyGet_of_nonneg_lt (by omega : (0:ℤ) ≤ L + 1) hb]
    have htoNat : (L + 1).toNat = L.toNat + 1 := by omega
    rw [htoNat]
  · rw [if_neg hb, if_neg hb]
    rw [pyGet_of_nonneg_lt hL0 (by omega)]

/-- The interpolated quantile value lies between the first and the last
entry of the sorted list. -/
theorem qval_bounds {s : List ℚ} (hs : s.Sorted (fun a b => a ≤ b))
    (hne : s ≠ []) {q : ℚ} (h0 : 0 ≤ q) (h1 : q ≤ 1) :
    s.getD 0 0 ≤ qval s q ∧ qval s q ≤ s.getD (s.length - 1) 0 := by
  obtain ⟨hL0, hL1⟩ := qval_index_bounds hne h0 h1
  have hn : 1 ≤ s.length := List.length_pos.mpr hne
  rw [qval]
  simp only [Int.cast_natCast]
  set t : ℚ := ((s.length : ℚ) - 1) * q with htdef
  set L : ℤ := ⌊t⌋ with hLdef
  have hδ0 : 0 ≤ t - (L : ℚ) := sub_nonneg.mpr (Int.floor_le t)
  have hδ1 : t - (L : ℚ) < 1 := by
    have := Int.lt_floor_add_one t
    push_cast at this ⊢
    linarith
  by_cases hb : L + 1 < (s.length : ℤ)
  · rw [if_pos hb]
    have hb' : L.toNat + 1 < s.length := by omega
    set a : ℚ := s.getD L.toNat 0 with hadef
    set b : ℚ := s.getD (L.toNat + 1) 0 with hbdef
    have hab : a ≤ b := sorted_getD_mono hs (Nat.le_succ _) hb'
    constructor
    · have h0a : s.getD 0 0 ≤ a := sorted_getD_mono hs (Nat.zero_le _) (by omega)
      nlinarith [mul_nonneg hδ0 (sub_nonneg.mpr hab)]
    · have hblast : b ≤ s.getD (s.length - 1) 0 :=
        sorted_getD_mono hs (by omega) (by omega)
      nlinarith [mul_nonneg (sub_nonneg.mpr hδ1.le) (sub_nonneg.mpr hab)]
  · rw [if_neg hb]
    constructor
    · exact sorted_getD_mono hs (Nat.zero_le _) (by omega)
    · exact sorted_getD_mono hs (by omega) (by omega)

/-- The interpolated quantile value is monotone in the probability. -/
theorem qval_mono {s : List ℚ} (hs : s.Sorted (fun a b => a ≤ b))
    (hne : s ≠ []) {q q' : ℚ} (h0 : 0 ≤ q) (hqq : q ≤ q') (h1 : q' ≤ 1) :
    qval s q ≤ qval s q' := by
  have h0' : 0 ≤ q' := h0.trans hqq
  have h1q : q ≤ 1 := hqq.trans h1
  obtain ⟨hL0, hLB⟩ := qval_index_bounds hne h0 h1q
  obtain ⟨hL0', hL1'⟩ := qval_index_bounds hne h0' h1
  have hn : 1 ≤ s.length := List.length_pos.mpr hne
  rw [qval, qval]
  simp only [Int.cast_natCast]
  set t : ℚ := ((s.length : ℚ) - 1) * q with htdef
  set t' : ℚ := ((s.length : ℚ) - 1) * q' with htdef'
  have htt : t ≤ t' := by
    have hn1 : (0 : ℚ) ≤ (s.length : ℚ) - 1 := by
      have : (1 : ℚ) ≤ (s.length : ℚ) := by exact_mod_cast hn
      linarith
    exact mul_le_mul_of_nonneg_left hqq hn1
  set L : ℤ := ⌊t⌋ with hLdef
  set L' : ℤ := ⌊t'⌋ with hLdef'
  have hLL : L ≤ L' := Int.floor_le_floor htt
  have hδ0 : 0 ≤ t - (L : ℚ) := sub_nonneg.mpr (Int.floor_le t)
  have hδ1 : t - (L : ℚ) < 1 := by
    have := Int.lt_floor_add_one t
    push_cast at this ⊢
    linarith
  have hδ0' : 0 ≤ t' - (L' : ℚ) := sub_nonneg.mpr (Int.floor_le t')
  have hδ1' : t' - (L' : ℚ) < 1 := by
    have := Int.lt_floor_add_one t'
    push_cast at this ⊢
    linarith
  rcases eq_or_lt_of_le hLL with hEq | hLlt
  · by_cases hb : L + 1 < (s.length : ℤ)
    · rw [if_pos hb, ← hEq, if_pos hb]
      have hb' : L.toNat + 1 < s.length := by omega
      set a : ℚ := s.getD L.toNat 0 with hadef
      set b : ℚ := s.getD (L.toNat + 1) 0 with hbdef
      have hab : a ≤ b := sorted_getD_mono hs (Nat.le_succ _) hb'
      have hδδ : t - (L : ℚ) ≤ t' - (L : ℚ) := by linarith
      nlinarith [mul_nonneg (sub_nonneg.mpr hδδ) (sub_nonneg.mpr hab)]
    · rw [if_neg hb, ← hEq, if_neg hb]
  · have hbt : L + 1 < (s.length : ℤ) := by omega
    rw [if_pos hbt]
    have hb' : L.toNat + 1 < s.length := by omega
    set a : ℚ := s.getD L.toNat 0 with hadef
    set b : ℚ := s.getD (L.toNat + 1) 0 with hbdef
    have hab : a ≤ b := sorted_getD_mono hs (Nat.le_succ _) hb'
    have step1 : a * (1 - (t - (L : ℚ))) + b * (t - (L : ℚ)) ≤ b := by
      nlinarith [mul_nonneg (sub_nonneg.mpr hδ1.le) (sub_nonneg.mpr hab)]
    have hmid : b ≤ s.getD L'.toNat 0 :=
      sorted_getD_mono hs (by omega) (by omega)
    by_cases hb2 : L' + 1 < (s.length : ℤ)
    · rw [if_pos hb2]
      have hb2' : L'.toNat + 1 < s.length := by omega
      set a' : ℚ := s.getD L'.toNat 0 with hadef'
      set b' : ℚ := s.getD (L'.toNat + 1) 0 with hbdef'
      have hab' : a' ≤ b' := sorted_getD_mono hs (Nat.le_succ _) hb2'
      have step3 : a' ≤ a' * (1 - (t' - (L' : ℚ))) + b' * (t' - (L' : ℚ)) := by
        nlinarith [mul_nonneg hδ0' (sub_nonneg.mpr hab')]
      linarith
    · rw [if_neg hb2]
      linarith

/-- The sorted copy of a non-empty list is non-empty. -/
theorem insertionSort_ne_nil {l : List ℚ} (hne : l ≠ []) :
    List.insertionSort (fun a b => a ≤ b) l ≠ [] := by
  intro hnil
  apply hne
  have := List.length_insertionSort (fun a b => a ≤ b) l
  rw [hnil] at this
  exact List.length_eq_zero.mp this.symm

/-- On a non-empty input, `calculate_stats` raises nothing and returns the
summary given by `statsSpec`. -/
theorem calculate_stats_eq (l : List ℤ) (hne : l ≠ []) :
    calculate_stats l = Except.ok (some (statsSpec l)) := by
  have hE : l.isEmpty = false := by
    rw [List.isEmpty_eq_false]
    exact hne
  have hvne : List.map (fun z : ℤ => (z : ℚ)) l ≠ [] := by
    intro hnil
    apply hne
    have hlen := congrArg List.length hnil
    rw [List.length_map] at hlen
    exact List.length_eq_zero.mp hlen
  set vals : List ℚ := List.map (fun z : ℤ => (z : ℚ)) l with hvals
  set s := List.insertionSort (fun a b => a ≤ b) vals with hsdef
  have hsorted : s.Sorted (fun a b => a ≤ b) := List.sorted_insertionSort _ _
  have hsne : s ≠ [] := insertionSort_ne_nil hvne
  have hfix : List.insertionSort (fun a b => a ≤ b) s = s :=
    List.Sorted.insertionSort_eq hsorted
  have hq1 : calculate_quantile s (1/4) = Except.ok (qval s (1/4)) := by
    rw [calculate_quantile_eq_qval s (1/4) (by norm_num) (by norm_num) hsne, hfix]
  have hq2 : calculate_quantile s (1/2) = Except.ok (qval s (1/2)) := by
    rw [calculate_quantile_eq_qval s (1/2) (by norm_num) (by norm_num) hsne, hfix]
  have hq3 : calculate_quantile s (3/4) = Except.ok (qval s (3/4)) := by
    rw [calculate_quantile_eq_qval s (3/4) (by norm_num) (by norm_num) hsne, hfix]
  rw [calculate_stats, hE]
  simp only [Bool.false_eq_true, if_false, ← hvals, ← hsdef, hq1, hq2, hq3, statsSpec]

/-- Characterization of `find?` over `range'`: it returns the first index
in the scanned interval satisfying the predicate. -/
theorem range'_find?_eq_some (p : ℕ → Bool) :
    ∀ (n s i : ℕ), (List.range' s n).find? p = some i ↔
      s ≤ i ∧ i < s + n ∧ p i = true ∧ ∀ j, s ≤ j → j < i → p j = false := by
  intro n
  induction n with
  | zero =>
    intro s i
    simp only [List.range', List.find?_nil]
    constructor
    · intro h; cases h
    · rintro ⟨h1, h2, _⟩; omega
  | succ m ih =>
    intro s i
    rw [List.range'_succ]
    by_cases hp : p s = true
    · rw [List.find?_cons_of_pos _ hp]
      constructor
      · rintro h
        injection h with h
        subst h
        exact ⟨le_refl _, by omega, hp, fun j h1 h2 => absurd (lt_of_le_of_lt h1 h2) (lt_irrefl _)⟩
      · rintro ⟨h1, h2, h3, h4⟩
        rcases eq_or_lt_of_le h1 with rfl | hlt
        · rfl
        · have := h4 s (le_refl _) hlt
          rw [hp] at this
          cases this
    · rw [List.find?_cons_of_neg _ (by simp [hp])]
      rw [ih (s + 1) i]
      constructor
      · rintro ⟨h1, h2, h3, h4⟩
        refine ⟨by omega, by omega, h3, fun j hj1 hj2 => ?_⟩
        rcases eq_or_lt_of_le hj1 with rfl | hlt
        · simpa using hp
        · exact h4 j (by omega) hj2
      · rintro ⟨h1, h2, h3, h4⟩
        have hsi : s ≠ i := by
          rintro rfl
          rw [h3] at hp
          exact hp rfl
        refine ⟨by omega, by omega, h3, fun j hj1 hj2 => h4 j (by omega) hj2⟩

/-- The bin-assignment loop of `histogram` returns `some i` exactly when
bin `i` is the first bin (in increasing order) whose half-open interval
`[edges[i], edges[i+1])` holds the value. -/
theorem binAssign_eq_some (bins : List ℚ) (n_bins : ℕ) (v : ℚ) (i : ℕ) :
    binAssign bins n_bins v = some i ↔
      i < n_bins ∧ bins.getD i 0 ≤ v ∧ v < bins.getD (i + 1) 0 ∧
        ∀ j, j < i → ¬(bins.getD j 0 ≤ v ∧ v < bins.getD (j + 1) 0) := by
  rw [binAssign, List.range_eq_range']
  rw [range'_find?_eq_some _ n_bins 0 i]
  constructor
  · rintro ⟨_, h2, h3, h4⟩
    simp only [Bool.and_eq_true, decide_eq_true_eq] at h3
    refine ⟨by omega, h3.1, h3.2, fun j hj => ?_⟩
    have := h4 j (Nat.zero_le _) hj
    simp only [Bool.and_eq_true, decide_eq_true_eq] at this
    intro hc
    rcases hc with ⟨hc1, hc2⟩
    rw [Bool.and_eq_false_iff] at this
    rcases this with h | h
    · rw [decide_eq_false_iff_not] at h; exact h hc1
    · rw [decide_eq_false_iff_not] at h; exact h hc2
  · rintro ⟨h1, h2, h3, h4⟩
    refine ⟨Nat.zero_le _, by omega, by simp only [Bool.and_eq_true, decide_eq_true_eq]; exact ⟨h2, h3⟩, fun j _ hj => ?_⟩
    have := h4 j hj
    rw [Bool.and_eq_false_iff]
    by_cases hc1 : bins.getD j 0 ≤ v
    · right
      rw [decide_eq_false_iff_not]
      intro hc2
      exact this ⟨hc1, hc2⟩
    · left
      rw [decide_eq_false_iff_not]
      exact hc1

/-- Folding `min` over copies of the same value is the identity. -/
theorem foldl_min_replicate (x : ℚ) : ∀ m : ℕ, (List.replicate m x).foldl min x = x := by
  intro m
  induction m with
  | zero => rfl
  | succ k ih =>
    rw [List.replicate_succ, List.foldl_cons, min_self]
    exact ih

/-- Folding `max` over copies of the same value is the identity. -/
theorem foldl_max_replicate (x : ℚ) : ∀ m : ℕ, (List.replicate m x).foldl max x = x := by
  intro m
  induction m with
  | zero => rfl
  | succ k ih =>
    rw [List.replicate_succ, List.foldl_cons, max_self]
    exact ih

/-- In-range reads from a replicated list give the repeated element. -/
theorem getD_replicate_of_lt {a d : ℚ} : ∀ {m j : ℕ}, j < m →
    (List.replicate m a).getD j d = a := by
  intro m
  induction m with
  | zero => intro j hj; omega
  | succ k ih =>
    intro j hj
    rw [List.replicate_succ]
    cases j with
    | zero => rfl
    | succ i =>
      rw [List.getD_cons_succ]
      exact ih (by omega)

/-- A fold whose step function ignores every encountered element returns
its initial accumulator. -/
theorem foldl_fixed_of_mem {α β : Type} (f : β → α → β) :
    ∀ (l : List α) (b : β), (∀ acc a, a ∈ l → f acc a = acc) → l.foldl f b = b := by
  intro l
  induction l with
  | nil => intro b _; rfl
  | cons x xs ih =>
    intro b h
    rw [List.foldl_cons, h b x (List.mem_cons_self x xs)]
    exact ih b (fun acc a ha => h acc a (List.mem_cons_of_mem x ha))

/-- On a constant-valued list the bin assignment never matches: every bin
has zero width. -/
theorem binAssign_const_none (c : ℚ) (n_bins : ℕ) :
    binAssign (List.replicate (n_bins + 1) c) n_bins c = none := by
  rw [binAssign, List.find?_eq_none]
  intro i hi
  rw [List.mem_range] at hi
  simp only [Bool.and_eq_true, decide_eq_true_eq, not_and]
  intro _
  rw [getD_replicate_of_lt (by omega)]
  exact lt_irrefl c

/-- C3 (amended): on a constant-valued (max = min) non-empty input,
`histogram` does not fail at all (no `DegenerateRangeError` exists in the
code): it returns `n_bins + 1` identical edges, so all bins have zero
width, together with all-zero frequencies and all-zero probabilities. -/
theorem c3_degenerate_range (c : ℚ) (k n_bins : ℕ) (hc : 0 ≤ c) (hk : 1 ≤ k)
    (hn : 1 ≤ n_bins) :
    histogram (List.replicate k c) n_bins =
      Except.ok (List.replicate (n_bins + 1) c, List.replicate n_bins 0,
        List.replicate n_bins 0) := by
  cases k with
  | zero => omega
  | succ m =>
    have hmin : pymin (List.replicate (m + 1) c) = Except.ok c := by
      rw [List.replicate_succ]
      show Except.ok ((List.replicate m c).foldl min c) = _
      rw [foldl_min_replicate]
    have hmax : pymax (List.replicate (m + 1) c) = Except.ok c := by
      rw [List.replicate_succ]
      show Except.ok ((List.replicate m c).foldl max c) = _
      rw [foldl_max_replicate]
    have hmaxc : max 0 c = c := max_eq_right hc
    have hbins : (List.range (n_bins + 1)).map
        (fun i : ℕ => max 0 c + (i : ℚ) * ((c - max 0 c) / (n_bins : ℚ))) =
        List.replicate (n_bins + 1) c := by
      have hcongr : ∀ i ∈ List.range (n_bins + 1),
          max 0 c + (i : ℚ) * ((c - max 0 c) / (n_bins : ℚ)) = c := by
        intro i _
        rw [hmaxc]
        ring_nf
      rw [List.map_congr_left hcongr, List.map_const', List.length_range]
    rw [histogram, hmin, hmax]
    show (if n_bins = 0 then _ else _) = _
    rw [if_neg (by omega : ¬n_bins = 0)]
    simp only [hbins]
    have hfreq : (List.replicate (m + 1) c).foldl
        (fun freq salary =>
          match binAssign (List.replicate (n_bins + 1) c) n_bins salary with
          | some i => freq.set i (freq.getD i 0 + 1)
          | none => freq)
        (List.replicate n_bins 0) = List.replicate n_bins 0 := by
      apply foldl_fixed_of_mem
      intro acc a ha
      rw [List.eq_of_mem_replicate ha, binAssign_const_none]
    rw [hfreq]
    have hprob : (List.replicate n_bins (0 : ℕ)).map
        (fun count : ℕ => (count : ℚ) / ((List.replicate (m + 1) c).length : ℚ)) =
        List.replicate n_bins 0 := by
      rw [List.map_replicate]
      norm_num
    rw [hprob]

/-- The population variance of the source is nonnegative. -/
theorem calculate_variance_nonneg (l : List ℚ) (m : ℚ) :
    0 ≤ calculate_variance l m := by
  rw [calculate_variance]
  apply div_nonneg
  · apply List.sum_nonneg
    intro x hx
    rw [List.mem_map] at hx
    obtain ⟨y, _, hy⟩ := hx
    rw [← hy]
    positivity
  · positivity

/-- Every in-range entry of the sorted list of casted integers is itself
the cast of an integer. -/
theorem sorted_getD_intCast (l : List ℤ) {k : ℕ}
    (hk : k < (List.insertionSort (fun a b => a ≤ b)
      (l.map (fun z : ℤ => (z : ℚ)))).length) :
    ∃ z : ℤ, (List.insertionSort (fun a b => a ≤ b)
      (l.map (fun z : ℤ => (z : ℚ)))).getD k 0 = (z : ℚ) := by
  set s := List.insertionSort (fun a b => a ≤ b) (l.map (fun z : ℤ => (z : ℚ)))
    with hsdef
  have hmem : s.getD k 0 ∈ s := by
    rw [List.getD_eq_getElem s 0 hk]
    exact List.getElem_mem hk
  rw [hsdef, List.mem_insertionSort, List.mem_map] at hmem
  obtain ⟨z, _, hz⟩ := hmem
  exact ⟨z, hz.symm⟩

/-- C9 (amended): every summary produced by `calculate_stats` satisfies
`min ≤ q1 ≤ median ≤ q3 ≤ max`, `iqr ≥ 0`, `range = max - min ≥ 0` and
`stdev ≥ 0`; moreover `stdev` is the integer square root of the reported
variance (`stdev² ≤ variance < (stdev+1)²`), the truncated remnant of
`stdev = sqrt(variance)`. -/
theorem c9_stats_invariants (l : List ℤ) (s : Stats)
    (h : calculate_stats l = Except.ok (some s)) :
    s.min ≤ s.q1 ∧ s.q1 ≤ s.median ∧ s.median ≤ s.q3 ∧ s.q3 ≤ s.max ∧
      0 ≤ s.iqr ∧ s.range = s.max - s.min ∧ 0 ≤ s.range ∧
      0 ≤ s.stdev ∧ s.stdev ^ 2 ≤ s.variance ∧ s.variance < (s.stdev + 1) ^ 2 := by
  have hne : l ≠ [] := by
    rintro rfl
    rw [calculate_stats] at h
    simp only [List.isEmpty_nil, if_true] at h
    injection h with h1
    cases h1
  rw [calculate_stats_eq l hne] at h
  injection h with h1
  injection h1 with h2
  subst h2
  rw [statsSpec]
  dsimp only
  set vals : List ℚ := l.map (fun z : ℤ => (z : ℚ)) with hvals
  set s0 := List.insertionSort (fun a b => a ≤ b) vals with hs0
  have hvne : vals ≠ [] := by
    intro hnil
    apply hne
    have hlen := congrArg List.length hnil
    rw [hvals, List.length_map] at hlen
    exact List.length_eq_zero.mp hlen
  have hsorted : s0.Sorted (fun a b => a ≤ b) := List.sorted_insertionSort _ _
  have hs0ne : s0 ≠ [] := insertionSort_ne_nil hvne
  have hn : 1 ≤ s0.length := List.length_pos.mpr hs0ne
  set q1r := qval s0 (1/4) with hq1r
  set q2r := qval s0 (1/2) with hq2r
  set q3r := qval s0 (3/4) with hq3r
  set vr := calculate_variance vals (calculate_mean vals) with hvr
  obtain ⟨z1, hz1⟩ := sorted_getD_intCast l (k := 0) (by rw [← hvals, ← hs0]; omega)
  obtain ⟨z2, hz2⟩ :=
    sorted_getD_intCast l (k := s0.length - 1) (by rw [← hvals, ← hs0]; omega)
  rw [← hvals, ← hs0] at hz1 hz2
  have hb1 := qval_bounds hsorted hs0ne (q := 1/4) (by norm_num) (by norm_num)
  have hb3 := qval_bounds hsorted hs0ne (q := 3/4) (by norm_num) (by norm_num)
  have hm12 : q1r ≤ q2r := qval_mono hsorted hs0ne (by norm_num) (by norm_num) (by norm_num)
  have hm23 : q2r ≤ q3r := qval_mono hsorted hs0ne (by norm_num) (by norm_num) (by norm_num)
  have hm13 : q1r ≤ q3r := hm12.trans hm23
  have hvr0 : 0 ≤ vr := calculate_variance_nonneg vals (calculate_mean vals)
  have hflvr : pyTrunc vr = ⌊vr⌋ := pyTrunc_of_nonneg hvr0
  have hfl0 : 0 ≤ ⌊vr⌋ := Int.floor_nonneg.mpr hvr0
  have hNvr : ((⌊vr⌋.toNat : ℕ) : ℤ) = ⌊vr⌋ := Int.toNat_of_nonneg hfl0
  refine ⟨?_, ?_, ?_, ?_, ?_, rfl, ?_, ?_, ?_, ?_⟩
  · -- min ≤ q1
    rw [hz1]
    have hle : (z1 : ℚ) ≤ q1r := by
      rw [← hz1]
      exact hb1.1
    exact_mod_cast le_pyTrunc hle
  · exact_mod_cast pyTrunc_mono hm12
  · exact_mod_cast pyTrunc_mono hm23
  · -- q3 ≤ max
    rw [hz2]
    have hle : q3r ≤ (z2 : ℚ) := by
      rw [← hz2]
      exact hb3.2
    exact_mod_cast pyTrunc_le hle
  · -- 0 ≤ iqr
    have := pyTrunc_nonneg (sub_nonneg.mpr hm13)
    exact_mod_cast this
  · -- 0 ≤ range
    exact sub_nonneg.mpr (sorted_getD_mono hsorted (Nat.zero_le _) (by omega))
  · -- 0 ≤ stdev
    rw [isqrt]
    positivity
  · -- stdev^2 ≤ variance
    rw [isqrt, hflvr, ← hNvr]
    have := Nat.sqrt_le' ⌊vr⌋.toNat
    exact_mod_cast this
  · -- variance < (stdev+1)^2
    rw [isqrt, hflvr, ← hNvr]
    have := Nat.lt_succ_sqrt' ⌊vr⌋.toNat
    exact_mod_cast this

/-! ### Claims -/

/-- C1 (counterexample): on the empty input, `calculate_stats` does not
raise at all — it silently returns `None` — and `calculate_quantile`
raises `IndexError`, not an `EmptyInputError` (no such error class exists
in the code). -/
theorem c1_counterexample :
    calculate_stats ([] : List ℤ) = Except.ok none ∧
      calculate_quantile ([] : List ℚ) (1/2) = Except.error PyError.indexError := by
  constructor
  · rfl
  · norm_num [calculate_quantile, List.insertionSort, pyTrunc, pyGet]

/-- C1 (amended): on the empty input, `calculate_stats` returns `None`
(a silent default — no exception, no summary), and `calculate_quantile`
raises `IndexError` for every probability; neither raises an
`EmptyInputError`, which does not exist in the code. -/
theorem c1_empty_behavior :
    calculate_stats ([] : List ℤ) = Except.ok none ∧
      ∀ q : ℚ, calculate_quantile ([] : List ℚ) q = Except.error PyError.indexError := by
  constructor
  · rfl
  · intro q
    rw [calculate_quantile]
    simp only [List.insertionSort, List.length_nil, Nat.cast_zero, pyGet_nil]
    split <;> rfl

/-- C2 (counterexample): `calculate_quantile` on `[10, 20, 30, 40]` with
the out-of-range probability `q = -1/2` raises nothing: Python negative
indexing reads the last element and the call returns `55`. -/
theorem c2_counterexample :
    calculate_quantile [10, 20, 30, 40] (-1/2) = Except.ok 55 := by
  have hc : ⌈(-(3/2) : ℚ)⌉ = -1 := by norm_num [Int.ceil_eq_iff]
  norm_num [calculate_quantile, List.insertionSort, List.orderedInsert, pyTrunc, pyGet,
    List.getElem_cons_succ, show Int.toNat 3 = 3 from rfl, hc]

/-- C2 (amended): `calculate_quantile` performs no validation of `q` and
never raises an `InvalidQuantileError` (no such error class exists in the
code); an out-of-range probability is fed to the same formula, so `q =
-1/2` returns `55` via negative indexing, `q = 1.1` silently clamps to
the maximum, and `q = 2` raises `IndexError`. -/
theorem c2_no_validation :
    calculate_quantile [10, 20, 30, 40] (-1/2) = Except.ok 55 ∧
      calculate_quantile [10, 20, 30, 40] (11/10) = Except.ok 40 ∧
      calculate_quantile [10, 20, 30, 40] 2 = Except.error PyError.indexError := by
  refine ⟨?_, ?_, ?_⟩
  · have hc : ⌈(-(3/2) : ℚ)⌉ = -1 := by norm_num [Int.ceil_eq_iff]
    norm_num [calculate_quantile, List.insertionSort, List.orderedInsert, pyTrunc, pyGet,
      List.getElem_cons_succ, show Int.toNat 3 = 3 from rfl, hc]
  · norm_num [calculate_quantile, List.insertionSort, List.orderedInsert, pyTrunc, pyGet,
      List.getElem_cons_succ, show Int.toNat 3 = 3 from rfl]
  · norm_num [calculate_quantile, List.insertionSort, List.orderedInsert, pyTrunc, pyGet,
      show Int.toNat 6 = 6 from rfl]

/-- C3 (counterexample): the histogram of the constant list `[5, 5]` with
two bins raises no error and returns zero-width edges `[5, 5, 5]` with
all-zero frequencies and probabilities. -/
theorem c3_counterexample :
    histogram [5, 5] 2 = Except.ok ([5, 5, 5], [0, 0], [0, 0]) := by
  norm_num [histogram, pymin, pymax, binAssign, List.range_succ, List.replicate, List.set]

/-- C3 (witness): the amended statement applied to the constant list of
two fives with two bins. -/
theorem c3_witness :
    histogram (List.replicate 2 (5 : ℚ)) 2 =
      Except.ok (List.replicate 3 (5 : ℚ), List.replicate 2 (0 : ℕ),
        List.replicate 2 (0 : ℚ)) :=
  c3_degenerate_range 5 2 2 (by norm_num) (by norm_num) (by norm_num)

/-- C4: `calculate_quantile` implements R type-7 linear interpolation:
for every non-empty list and probability in `[0, 1]` it returns the value
of the formula `index = (n-1)q`, `lower = floor(index)`, `delta = index -
lower`, interpolating between `sorted[lower]` and `sorted[lower+1]` when
`lower+1 < n` and clamping to `sorted[lower]` otherwise (`qval`); on
`[10, 20, 30, 40]` it returns exactly `17.5`, `25`, `32.5`, `10`, `40`
at `q = 0.25, 0.5, 0.75, 0, 1`. -/
theorem c4_quantile_type7 :
    (∀ (l : List ℚ) (q : ℚ), 0 ≤ q → q ≤ 1 → l ≠ [] →
      calculate_quantile l q =
        Except.ok (qval (List.insertionSort (fun a b => a ≤ b) l) q)) ∧
    calculate_quantile [10, 20, 30, 40] (1/4) = Except.ok (35/2) ∧
    calculate_quantile [10, 20, 30, 40] (1/2) = Except.ok 25 ∧
    calculate_quantile [10, 20, 30, 40] (3/4) = Except.ok (65/2) ∧
    calculate_quantile [10, 20, 30, 40] 0 = Except.ok 10 ∧
    calculate_quantile [10, 20, 30, 40] 1 = Except.ok 40 := by
  refine ⟨calculate_quantile_eq_qval, ?_, ?_, ?_, ?_, ?_⟩ <;>
    norm_num [calculate_quantile, List.insertionSort, List.orderedInsert, pyTrunc, pyGet,
      List.getElem_cons_succ, show Int.toNat 1 = 1 from rfl, show Int.toNat 2 = 2 from rfl,
      show Int.toNat 3 = 3 from rfl]

/-- C4 (witness): the general interpolation statement applied to a
concrete list and probability. -/
theorem c4_witness :
    calculate_quantile [30, 10] (1/2) =
      Except.ok (qval (List.insertionSort (fun a b => a ≤ b) [30, 10]) (1/2)) :=
  c4_quantile_type7.1 [30, 10] (1/2) (by norm_num) (by norm_num)
    (by exact List.cons_ne_nil _ _)

/-- C5: the mean is the exact rational division of the sum by the count
(multiplying back by the count recovers the sum — nothing is truncated),
the variance is the population variance with divisor `n`, and on
`[100, 200, 300]` the mean is `200` and the variance is exactly
`20000/3`, which agrees with the spec display value `6666.67` to within
`0.005` and has square root strictly between `81.64` and `81.65`. -/
theorem c5_mean_variance :
    (∀ l : List ℚ, l ≠ [] → calculate_mean l * (l.length : ℚ) = l.sum) ∧
    (∀ (l : List ℚ) (m : ℚ), l ≠ [] →
      calculate_variance l m * (l.length : ℚ) =
        ((l.map (fun x => (x - m) ^ 2)).sum)) ∧
    calculate_mean [100, 200, 300] = 200 ∧
    calculate_variance [100, 200, 300] (calculate_mean [100, 200, 300]) = 20000 / 3 ∧
    |calculate_variance [100, 200, 300] (calculate_mean [100, 200, 300]) -
      666667 / 100| < 1 / 200 ∧
    (8164 / 100 : ℚ) ^ 2 <
      calculate_variance [100, 200, 300] (calculate_mean [100, 200, 300]) ∧
    calculate_variance [100, 200, 300] (calculate_mean [100, 200, 300]) <
      (8165 / 100 : ℚ) ^ 2 := by
  refine ⟨?_, ?_, ?_, ?_, ?_, ?_, ?_⟩
  · intro l hl
    have hlen : (l.length : ℚ) ≠ 0 := by
      have := List.length_pos.mpr hl
      positivity
    rw [calculate_mean, div_mul_cancel₀ _ hlen]
  · intro l m hl
    have hlen : (l.length : ℚ) ≠ 0 := by
      have := List.length_pos.mpr hl
      positivity
    rw [calculate_variance, div_mul_cancel₀ _ hlen]
  all_goals norm_num [calculate_mean, calculate_variance, abs_lt]

/-- C5 (witness): exact mean division applied to a concrete list. -/
theorem c5_witness :
    calculate_mean [1, 2] * (([1, 2] : List ℚ).length : ℚ) = ([1, 2] : List ℚ).sum :=
  c5_mean_variance.1 [1, 2] (by exact List.cons_ne_nil _ _)

/-- C6 (counterexample): on `[100, 200, 300]` the summary field `variance`
is the truncated integer `6666`, not the full-precision value `20000/3`
of `calculate_variance`: the engine exposes only truncated values. -/
theorem c6_counterexample :
    calculate_stats [100, 200, 300] =
      Except.ok (some ⟨3, 100, 300, 200, 200, 6666, 81, 150, 200, 250, 100⟩) ∧
      (6666 : ℚ) ≠
        calculate_variance [100, 200, 300] (calculate_mean [100, 200, 300]) := by
  constructor
  · have hs : Nat.sqrt (Int.toNat 6666) = 81 := nat_sqrt_eval (by norm_num) (by norm_num)
    norm_num [calculate_stats, calculate_quantile, calculate_mean, calculate_variance,
      List.insertionSort, List.orderedInsert, pyTrunc, pyGet, isqrt,
      List.getElem_cons_succ, show Int.toNat 2 = 2 from rfl,
      show Int.toNat 1 = 1 from rfl, hs]
  · norm_num [calculate_mean, calculate_variance]

/-- C6 (amended): in every summary produced by `calculate_stats` the
fields `mean`, `variance`, `stdev`, `q1`, `median`, `q3` and `iqr` are
integer-truncated (each equals its own floor): the truncation happens
inside the engine and no full-precision real values are exposed. -/
theorem c6_truncated_output (l : List ℤ) (s : Stats)
    (h : calculate_stats l = Except.ok (some s)) :
    s.mean = ((⌊s.mean⌋ : ℤ) : ℚ) ∧ s.variance = ((⌊s.variance⌋ : ℤ) : ℚ) ∧
      s.stdev = ((⌊s.stdev⌋ : ℤ) : ℚ) ∧ s.q1 = ((⌊s.q1⌋ : ℤ) : ℚ) ∧
      s.median = ((⌊s.median⌋ : ℤ) : ℚ) ∧ s.q3 = ((⌊s.q3⌋ : ℤ) : ℚ) ∧
      s.iqr = ((⌊s.iqr⌋ : ℤ) : ℚ) := by
  have hne : l ≠ [] := by
    rintro rfl
    rw [calculate_stats] at h
    simp only [List.isEmpty_nil, if_true] at h
    injection h with h1
    cases h1
  rw [calculate_stats_eq l hne] at h
  injection h with h1
  injection h1 with h2
  subst h2
  rw [statsSpec]
  dsimp only
  refine ⟨?_, ?_, ?_, ?_, ?_, ?_, ?_⟩ <;> rw [Int.floor_intCast]

/-- C6 (witness): the truncation statement applied to `[100, 200, 300]`
and its concrete summary. -/
theorem c6_witness :
    (200 : ℚ) = ((⌊(200 : ℚ)⌋ : ℤ) : ℚ) ∧ (6666 : ℚ) = ((⌊(6666 : ℚ)⌋ : ℤ) : ℚ) ∧
      (81 : ℚ) = ((⌊(81 : ℚ)⌋ : ℤ) : ℚ) ∧ (150 : ℚ) = ((⌊(150 : ℚ)⌋ : ℤ) : ℚ) ∧
      (200 : ℚ) = ((⌊(200 : ℚ)⌋ : ℤ) : ℚ) ∧ (250 : ℚ) = ((⌊(250 : ℚ)⌋ : ℤ) : ℚ) ∧
      (100 : ℚ) = ((⌊(100 : ℚ)⌋ : ℤ) : ℚ) :=
  c6_truncated_output [100, 200, 300] ⟨3, 100, 300, 200, 200, 6666, 81, 150, 200, 250, 100⟩
    (by
      have hs : Nat.sqrt (Int.toNat 6666) = 81 := nat_sqrt_eval (by norm_num) (by norm_num)
      norm_num [calculate_stats, calculate_quantile, calculate_mean, calculate_variance,
        List.insertionSort, List.orderedInsert, pyTrunc, pyGet, isqrt,
        List.getElem_cons_succ, show Int.toNat 2 = 2 from rfl,
        show Int.toNat 1 = 1 from rfl, hs])

/-- C7: a value `v` is assigned to bin `i` exactly when
`edges[i] ≤ v < edges[i+1]` and no earlier bin matches (first match in
increasing order wins), so a value equal to the last edge lands in no
bin; consequently `histogram [0, 10, 20, 30, 40]` with two bins gives
edges `[0, 20, 40]` and frequencies `[2, 2]`, dropping the maximum `40`. -/
theorem c7_histogram_binning :
    histogram [0, 10, 20, 30, 40] 2 = Except.ok ([0, 20, 40], [2, 2], [2/5, 2/5]) ∧
    (∀ (bins : List ℚ) (n_bins : ℕ) (v : ℚ) (i : ℕ),
      binAssign bins n_bins v = some i ↔
        i < n_bins ∧ bins.getD i 0 ≤ v ∧ v < bins.getD (i + 1) 0 ∧
          ∀ j, j < i → ¬(bins.getD j 0 ≤ v ∧ v < bins.getD (j + 1) 0)) ∧
    binAssign [0, 20, 40] 2 40 = none := by
  refine ⟨?_, binAssign_eq_some, ?_⟩
  · norm_num [histogram, pymin, pymax, binAssign, List.range_succ, List.replicate,
      List.set_cons_succ, List.set_cons_zero, List.set]
  · norm_num [binAssign, List.range_succ]

/-- C7 (witness): the bin-assignment characterization applied to the
value 25, which lands in the second bin of the example histogram. -/
theorem c7_witness : binAssign [0, 20, 40] 2 25 = some 1 :=
  (c7_histogram_binning.2.1 [0, 20, 40] 2 25 1).mpr
    ⟨by norm_num,
     by norm_num [List.getD_cons_succ, List.getD_cons_zero],
     by norm_num [List.getD_cons_succ, List.getD_cons_zero],
     by
       intro j hj
       have hj0 : j = 0 := by omega
       subst hj0
       norm_num [List.getD_cons_succ, List.getD_cons_zero]⟩

/-- C8 (counterexample): with both bounds present, `parse_salary` uses
Python floor division: on `from = 10`, `to = 21` it returns `15`, not the
exact midpoint `15.5`. -/
theorem c8_counterexample :
    parse_salary (some ⟨some "RUR", some 10, some 21⟩) = some 15 ∧
      (15 : ℚ) ≠ ((10 : ℚ) + 21) / 2 := by
  constructor
  · rfl
  · norm_num

/-- C8 (amended): `parse_salary` returns no value when the record is
falsy or the currency differs from RUR; with both bounds present and
nonzero it returns the floor midpoint `(from + to) // 2` (floor
division, not the exact midpoint); with exactly one bound present and
nonzero it returns that bound; with neither bound present it returns no
value. -/
theorem c8_parse_salary (c : Option String) (sf st : Option ℤ) (a b : ℤ) :
    parse_salary none = none ∧
      (c ≠ some "RUR" → parse_salary (some ⟨c, sf, st⟩) = none) ∧
      (a ≠ 0 → b ≠ 0 →
        parse_salary (some ⟨some "RUR", some a, some b⟩) =
          some (Int.fdiv (a + b) 2)) ∧
      (a ≠ 0 → parse_salary (some ⟨some "RUR", some a, none⟩) = some a) ∧
      (b ≠ 0 → parse_salary (some ⟨some "RUR", none, some b⟩) = some b) ∧
      parse_salary (some ⟨some "RUR", none, none⟩) = none := by
  refine ⟨rfl, ?_, ?_, ?_, ?_, rfl⟩
  · intro hc
    rw [parse_salary]
    simp only [if_neg hc]
  · intro ha hb
    rw [parse_salary]
    have hcond : (truthy (some a) && truthy (some b)) = true := by
      simp [truthy, bne_iff_ne, ha, hb]
    simp only [if_pos rfl, hcond, if_true, Option.getD_some]
  · intro ha
    rw [parse_salary]
    have hcond : (truthy (some a) && truthy none) = false := by
      simp [truthy]
    have hor : pyOr (some a) none = some a := by
      simp [pyOr, truthy, bne_iff_ne, ha]
    simp only [if_pos rfl, hcond, Bool.false_eq_true, if_false, hor]
    simp
  · intro hb
    rw [parse_salary]
    have hcond : (truthy none && truthy (some b)) = false := by
      simp [truthy]
    have hor : pyOr none (some b) = some b := by
      simp [pyOr, truthy]
    simp only [if_pos rfl, hcond, Bool.false_eq_true, if_false, hor]
    simp

/-- C8 (witness): the floor-midpoint branch applied to bounds 10 and 21. -/
theorem c8_witness :
    parse_salary (some ⟨some "RUR", some 10, some 21⟩) =
      some (Int.fdiv (10 + 21) 2) :=
  (c8_parse_salary (some "RUR") none none 10 21).2.2.1 (by norm_num) (by norm_num)

/-- C9 (counterexample): on `[0, 3, 4, 4]` the reported summary has
`iqr = 1` while the reported `q3 - q1 = 4 - 2 = 2` (the engine truncates
`q3 - q1` before, not after, reading the truncated quartiles), and
`stdev² = 1 ≠ 2 = variance`, so `stdev` is not the square root of the
reported variance. -/
theorem c9_counterexample :
    calculate_stats [0, 3, 4, 4] =
      Except.ok (some ⟨4, 0, 4, 4, 2, 2, 1, 2, 3, 4, 1⟩) ∧
      (1 : ℚ) ≠ (4 : ℚ) - 2 ∧ (1 : ℚ) ^ 2 ≠ (2 : ℚ) := by
  refine ⟨?_, by norm_num, by norm_num⟩
  have hs : Nat.sqrt (Int.toNat 2) = 1 := nat_sqrt_eval (by norm_num) (by norm_num)
  norm_num [calculate_stats, calculate_quantile, calculate_mean, calculate_variance,
    List.insertionSort, List.orderedInsert, pyTrunc, pyGet, isqrt,
    List.getElem_cons_succ, show Int.toNat 2 = 2 from rfl,
    show Int.toNat 1 = 1 from rfl, show Int.toNat 3 = 3 from rfl, hs]

/-- C9 (witness): the invariants applied to the summary of
`[100, 200, 300]`. -/
theorem c9_witness :
    ((100 : ℚ) ≤ 150 ∧ (150 : ℚ) ≤ 200 ∧ (200 : ℚ) ≤ 250 ∧ (250 : ℚ) ≤ 300 ∧
      (0 : ℚ) ≤ 100 ∧ (200 : ℚ) = 300 - 100 ∧ (0 : ℚ) ≤ 200 ∧
      (0 : ℚ) ≤ 81 ∧ (81 : ℚ) ^ 2 ≤ 6666 ∧ (6666 : ℚ) < (81 + 1) ^ 2) :=
  c9_stats_invariants [100, 200, 300]
    ⟨3, 100, 300, 200, 200, 6666, 81, 150, 200, 250, 100⟩
    (by
      have hs : Nat.sqrt (Int.toNat 6666) = 81 := nat_sqrt_eval (by norm_num) (by norm_num)
      norm_num [calculate_stats, calculate_quantile, calculate_mean, calculate_variance,
        List.insertionSort, List.orderedInsert, pyTrunc, pyGet, isqrt,
        List.getElem_cons_succ, show Int.toNat 2 = 2 from rfl,
        show Int.toNat 1 = 1 from rfl, hs])

/-- C10: `parse_salary` treats a zero bound as absent: with accepted
currency, `from = 0` and `to = t` it returns `t` itself (in particular
`80000`, not the midpoint `40000`), and with `from = 0` and `to` absent
it returns no value rather than the bound `0`. -/
theorem c10_zero_bound :
    (∀ t : ℤ, parse_salary (some ⟨some "RUR", some 0, some t⟩) = some t) ∧
      parse_salary (some ⟨some "RUR", some 0, none⟩) = none ∧
      parse_salary (some ⟨some "RUR", some 0, some 80000⟩) = some 80000 ∧
      some (80000 : ℤ) ≠ some (Int.fdiv (0 + 80000) 2) := by
  refine ⟨?_, rfl, rfl, by norm_num [Int.fdiv]⟩
  intro t
  rfl
